import Mathlib

/-! Binary search tree (BinarySearchTree.h)

A shallow embedding of the class template `BinarySearchTree<Comparable>`.

* A `BinaryNode*` handle is a value of the inductive type `BinaryNode α`:
  `nil` is `nullptr`, `node e l r` is a pointer to a heap node whose fields are
  `element = e`, `left = l`, `right = r`.  Nodes are exclusively owned by their
  parent, so a handle determines the whole subtree below it.
* A routine taking `BinaryNode*& t` and reassigning it is a function returning
  the new value of the handle.
* `Comparable` is a type with `operator<`; the definitions only need `<` to be
  decidable.  The element type is required to carry a strict total order, so the
  properties that depend on the order are proved for a `LinearOrder`; those that
  hold for any `<` are proved without that assumption.
* The overload `insert(Comparable&&, BinaryNode*&)` (lines 97-115) has the same control
  flow as the `const&` overload and is covered by the same function.
-/

namespace BinarySearchTree

variable {α : Type}

/-- Subtree handle: `nil` is the null pointer, `node element left right` points to a
`BinaryNode` with those three fields (BinarySearchTree.h, lines 62-71). -/
inductive BinaryNode (α : Type) where
  | nil : BinaryNode α
  | node (element : α) (left : BinaryNode α) (right : BinaryNode α) : BinaryNode α
  deriving DecidableEq

open BinaryNode

/-- Test `t == nullptr`. -/
def isNull : BinaryNode α → Bool
  | nil => true
  | node _ _ _ => false

/-- Internal `insert(const Comparable& x, BinaryNode*& t)`, lines 76-94; the result is the
new value of the handle `t`. -/
def insert [LT α] [DecidableRel ((· < ·) : α → α → Prop)] (x : α) :
    BinaryNode α → BinaryNode α
  | nil => node x nil nil
  | node e l r =>
    if x < e then node e (insert x l) r
    else if e < x then node e l (insert x r)
    else node e l r

/-- Internal `findMin(BinaryNode* t)`, lines 147-159: the returned pointer is the handle of
the leftmost node, or `nil` when `t` is null. -/
def findMin : BinaryNode α → BinaryNode α
  | nil => nil
  | node e nil r => node e nil r
  | node _ (node e1 l1 r1) _ => findMin (node e1 l1 r1)

/-- Internal `findMax(BinaryNode* t)`, lines 162-173.  The `while` loop follows `right`
pointers while the right child is not null; each iteration moves to a strict subtree, so the
loop is the structural recursion below.  A null `t` skips the loop and is returned as is. -/
def findMax : BinaryNode α → BinaryNode α
  | nil => nil
  | node e l nil => node e l nil
  | node _ _ (node e1 l1 r1) => findMax (node e1 l1 r1)

/-- Internal `remove(const Comparable& x, BinaryNode*& t)`, lines 118-144; the result is the
new value of the handle `t`.  In the two-children branch `findMin(t->right)` is dereferenced;
the right child is not null there, so the pointer returned is a node (`findMin_isNull`), and
the `nil` alternative of the inner match is never taken. -/
def remove [LT α] [DecidableRel ((· < ·) : α → α → Prop)] :
    α → BinaryNode α → BinaryNode α
  | _, nil => nil
  | x, node e l r =>
    if x < e then node e (remove x l) r
    else if e < x then node e l (remove x r)
    else if !isNull l && !isNull r then
      match findMin r with
      | node m _ _ => node m l (remove m r)
      | nil => node e l r
    else
      if !isNull l then l else r

/-- Internal `contains(const Comparable& x, BinaryNode* t)`, lines 176-196. -/
def contains [LT α] [DecidableRel ((· < ·) : α → α → Prop)] (x : α) :
    BinaryNode α → Bool
  | nil => false
  | node e l r =>
    if x < e then contains x l
    else if e < x then contains x r
    else true

/-- Modelled from the spec: the body of `printTree(BinaryNode*, ostream&)` is only declared
in the header.  The spec describes it as the in-order traversal (left, self, right); this is
the sequence of elements it visits. -/
def inorder : BinaryNode α → List α
  | nil => []
  | node e l r => inorder l ++ e :: inorder r

/-- The element stored in the node a handle points to, if the handle is not null. -/
def element? : BinaryNode α → Option α
  | nil => none
  | node e _ _ => some e

/-- BST order invariant of the data model: for every node, every value in its left subtree is
strictly less than its element and every value in its right subtree is strictly greater. -/
def IsBST [LT α] : BinaryNode α → Prop
  | nil => True
  | node e l r =>
    (∀ y ∈ inorder l, y < e) ∧ (∀ y ∈ inorder r, e < y) ∧ IsBST l ∧ IsBST r

/-- Two values are equivalent when neither is less than the other. -/
def Equivalent [LT α] (a b : α) : Prop := ¬ a < b ∧ ¬ b < a

/-- One call of the public mutating interface. -/
inductive Op (α : Type) where
  | ins (x : α) : Op α
  | del (x : α) : Op α

/-- Effect of one call on the root handle: `insert(x)` is `insert(x, root)` (lines 45-48) and
`remove(x)` is `remove(x, root)` (lines 53-56). -/
def Op.apply [LT α] [DecidableRel ((· < ·) : α → α → Prop)] : Op α → BinaryNode α → BinaryNode α
  | Op.ins x, t => insert x t
  | Op.del x, t => remove x t

/-- Effect of a finite sequence of calls, executed from left to right. -/
def runOps [LT α] [DecidableRel ((· < ·) : α → α → Prop)] (ops : List (Op α))
    (t : BinaryNode α) : BinaryNode α :=
  ops.foldl (fun s op => op.apply s) t

/-- Insert the members of a list one by one, from left to right. -/
def insertAll [LT α] [DecidableRel ((· < ·) : α → α → Prop)] (xs : List α)
    (t : BinaryNode α) : BinaryNode α :=
  xs.foldl (fun s x => insert x s) t

/-- The order invariant can be checked by evaluation. -/
instance decidableIsBST [LT α] [DecidableRel ((· < ·) : α → α → Prop)] :
    (t : BinaryNode α) → Decidable (IsBST t)
  | nil => isTrue trivial
  | node e l r =>
    have _dl : Decidable (IsBST l) := decidableIsBST l
    have _dr : Decidable (IsBST r) := decidableIsBST r
    inferInstanceAs (Decidable
      ((∀ y ∈ inorder l, y < e) ∧ (∀ y ∈ inorder r, e < y) ∧ IsBST l ∧ IsBST r))

/-- The tree built by inserting 5, 3, 8, 1, 4, 7, 9 into an empty tree. -/
def sampleTree : BinaryNode Nat := insertAll [5, 3, 8, 1, 4, 7, 9] nil

/-- The two ways the header hands a node around: by pointer (`BinaryNode*`, which may be
null) or by reference (`BinaryNode&`, which always denotes an existing node). -/
inductive Passing where
  | pointer : Passing
  | reference : Passing
  deriving DecidableEq

/-- Whether a value handed over in the first way can initialise an object declared in the
second way.  C++ has no implicit conversion between `BinaryNode*` and `BinaryNode&`, in either
direction, and none from `nullptr` to a reference. -/
def bindsTo : Passing → Passing → Bool
  | Passing.pointer, Passing.pointer => true
  | Passing.reference, Passing.reference => true
  | _, _ => false

/-- What a routine of the header delivers: a value, or nothing at all when one of its
statements cannot be typed, so that the routine is refused as soon as it is instantiated. -/
inductive Outcome (β : Type) where
  | value (v : β) : Outcome β
  | rejected : Outcome β

/-- Result type in the declaration of `clone`, line 214:
`BinaryNode& clone(BinaryNode* t) const`. -/
def cloneResult : Passing := Passing.reference

/-- Body of `clone(BinaryNode* t)`, lines 214-224, for a given declared result type.  A null
handle that is returned is `Outcome.value nil`; `Outcome.rejected` is no result at all.
* Line 218, `return nullptr;`: the operand is a pointer, so a result exists only if a pointer
  can initialise the declared result.
* Line 222, `return new BinaryNode{ t->element, clone(t->left), clone(t->right) };`: the
  constructor takes its children as `BinaryNode*` (line 68) and receives the results of the two
  recursive calls, and the operand of `return` is the pointer given by `new`; a result exists
  only if both initialisations are possible and both recursive calls have a result. -/
def cloneAs (result : Passing) : BinaryNode α → Outcome (BinaryNode α)
  | nil => if bindsTo Passing.pointer result then Outcome.value nil else Outcome.rejected
  | node e l r =>
    if bindsTo result Passing.pointer && bindsTo Passing.pointer result then
      match cloneAs result l, cloneAs result r with
      | Outcome.value l1, Outcome.value r1 => Outcome.value (node e l1 r1)
      | _, _ => Outcome.rejected
    else Outcome.rejected

/-- Internal `clone(BinaryNode* t)` as the header declares it, lines 214-224. -/
def clone (t : BinaryNode α) : Outcome (BinaryNode α) := cloneAs cloneResult t

/-- Internal `makeEmpty(BinaryNode*& t)`, lines 199-209.  The first component is the new
value of the handle `t`; the second lists the elements of the nodes passed to `delete`, in
the order of deletion (left subtree, right subtree, then the node itself). -/
def makeEmpty : BinaryNode α → BinaryNode α × List α
  | nil => (nil, [])
  | node e l r => (nil, (makeEmpty l).2 ++ (makeEmpty r).2 ++ [e])

/-- Number of nodes on the longest path from the handle down to a leaf; 0 for the null
handle, 1 for a single node. -/
def height : BinaryNode α → Nat
  | nil => 0
  | node _ l r => 1 + max (height l) (height r)

/-- Number of nodes reachable from the handle. -/
def size : BinaryNode α → Nat
  | nil => 0
  | node _ l r => size l + 1 + size r

/-- The recursive call, if any, made by the activation `remove(x, t)` (lines 118-144): the
value and the handle it is called with.  Every branch of the body makes at most one recursive
call. -/
def removeCallee [LT α] [DecidableRel ((· < ·) : α → α → Prop)] :
    α → BinaryNode α → Option (α × BinaryNode α)
  | _, nil => none
  | x, node e l r =>
    if x < e then some (x, l)
    else if e < x then some (x, r)
    else if !isNull l && !isNull r then
      match findMin r with
      | node m _ _ => some (m, r)
      | nil => none
    else none

/-- Number of nested activations of `remove` caused by the call `remove(x, t)`, the call
itself included: the body of `remove` with every recursive call counted. -/
def removeCalls [LT α] [DecidableRel ((· < ·) : α → α → Prop)] :
    α → BinaryNode α → Nat
  | _, nil => 1
  | x, node e l r =>
    if x < e then 1 + removeCalls x l
    else if e < x then 1 + removeCalls x r
    else if !isNull l && !isNull r then
      match findMin r with
      | node m _ _ => 1 + removeCalls m r
      | nil => 1
    else 1

/-! ## Auxiliary facts -/

section Lemmas

variable [LinearOrder α]

theorem mem_inorder_insert (x y : α) (t : BinaryNode α) :
    y ∈ inorder (insert x t) ↔ y = x ∨ y ∈ inorder t := by
  induction t with
  | nil => simp [insert, inorder]
  | node e l r ihl ihr =>
    unfold insert
    split_ifs with h1 h2
    · simp only [inorder, List.mem_append, List.mem_cons, ihl]; tauto
    · simp only [inorder, List.mem_append, List.mem_cons, ihr]; tauto
    · have hxe : x = e := le_antisymm (not_lt.mp h2) (not_lt.mp h1)
      subst hxe
      simp only [inorder, List.mem_append, List.mem_cons]; tauto

theorem isBST_insert (x : α) (t : BinaryNode α) (h : IsBST t) : IsBST (insert x t) := by
  induction t with
  | nil => simp [insert, IsBST, inorder]
  | node e l r ihl ihr =>
    obtain ⟨hl, hr, bl, br⟩ := h
    unfold insert
    split_ifs with h1 h2
    · refine ⟨?_, hr, ihl bl, br⟩
      intro y hy
      rcases (mem_inorder_insert x y l).mp hy with rfl | hy
      · exact h1
      · exact hl y hy
    · refine ⟨hl, ?_, bl, ihr br⟩
      intro y hy
      rcases (mem_inorder_insert x y r).mp hy with rfl | hy
      · exact h2
      · exact hr y hy
    · exact ⟨hl, hr, bl, br⟩

theorem isBST_iff_sorted (t : BinaryNode α) :
    IsBST t ↔ List.Sorted (· < ·) (inorder t) := by
  induction t with
  | nil => simp [IsBST, inorder]
  | node e l r ihl ihr =>
    simp only [IsBST, inorder, List.Sorted, List.pairwise_append, List.pairwise_cons,
      List.mem_cons] at *
    rw [ihl, ihr]
    constructor
    · rintro ⟨hl, hr, sl, sr⟩
      refine ⟨sl, ⟨hr, sr⟩, ?_⟩
      rintro a ha b (rfl | hb)
      · exact hl a ha
      · exact lt_trans (hl a ha) (hr b hb)
    · rintro ⟨sl, ⟨hr, sr⟩, hx⟩
      exact ⟨fun y hy => hx y hy e (Or.inl rfl), hr, sl, sr⟩

end Lemmas

theorem findMin_isNull (t : BinaryNode α) : isNull (findMin t) = isNull t := by
  induction t with
  | nil => rfl
  | node e l r ihl _ =>
    cases l with
    | nil => rfl
    | node e1 l1 r1 => simpa [findMin, isNull] using ihl

theorem findMax_isNull (t : BinaryNode α) : isNull (findMax t) = isNull t := by
  induction t with
  | nil => rfl
  | node e l r _ ihr =>
    cases r with
    | nil => rfl
    | node e1 l1 r1 => simpa [findMax, isNull] using ihr

theorem head_inorder (t : BinaryNode α) : (inorder t).head? = element? (findMin t) := by
  induction t with
  | nil => rfl
  | node e l r ihl _ =>
    cases l with
    | nil => rfl
    | node e1 l1 r1 =>
      have hne : inorder (node e1 l1 r1) ≠ [] := by simp [inorder]
      rw [inorder, List.head?_append_of_ne_nil _ hne, ihl]
      rfl

theorem getLast_inorder (t : BinaryNode α) :
    (inorder t).getLast? = element? (findMax t) := by
  induction t with
  | nil => rfl
  | node e l r _ ihr =>
    cases r with
    | nil => simp [inorder, findMax, element?]
    | node e1 l1 r1 =>
      have hne : inorder (node e1 l1 r1) ≠ [] := by simp [inorder]
      have h2 : (e :: inorder (node e1 l1 r1)).getLast? = (inorder (node e1 l1 r1)).getLast? := by
        cases hi : inorder (node e1 l1 r1) with
        | nil => exact absurd hi hne
        | cons a as => simp [List.getLast?_cons_cons]
      rw [inorder, List.getLast?_append_of_ne_nil _ (by simp), h2, ihr]
      rfl


theorem findMin_node (t : BinaryNode α) (h : isNull t = false) :
    ∃ m lm rm rest, findMin t = node m lm rm ∧ inorder t = m :: rest := by
  have h1 := findMin_isNull t
  have h2 := head_inorder t
  rw [h] at h1
  cases hf : findMin t with
  | nil => rw [hf] at h1; simp [isNull] at h1
  | node m lm rm =>
    rw [hf] at h2
    cases hi : inorder t with
    | nil => rw [hi] at h2; simp [element?] at h2
    | cons a rest =>
      rw [hi] at h2
      simp only [List.head?_cons, element?, Option.some.injEq] at h2
      exact ⟨m, lm, rm, rest, rfl, by rw [h2]⟩

section RemoveLemmas

variable [LinearOrder α]

theorem inorder_remove (x : α) (t : BinaryNode α) (h : IsBST t) :
    inorder (remove x t) = (inorder t).erase x := by
  induction t generalizing x with
  | nil => simp [remove, inorder]
  | node e l r ihl ihr =>
    obtain ⟨hl, hr, bl, br⟩ := h
    have hel : e ∉ inorder l := fun hm => lt_irrefl e (hl e hm)
    have her : e ∉ inorder r := fun hm => lt_irrefl e (hr e hm)
    unfold remove
    split_ifs with h1 h2 h3 h4
    · have hxr : x ∉ inorder r := fun hm => lt_asymm h1 (hr x hm)
      have hne : e ≠ x := fun he => lt_irrefl x (he ▸ h1)
      simp only [inorder, ihl x bl]
      by_cases hxl : x ∈ inorder l
      · rw [List.erase_append_left _ hxl]
      · rw [List.erase_append_right _ hxl, List.erase_cons_tail (by simpa using hne),
          List.erase_of_not_mem hxr, List.erase_of_not_mem hxl]
    · have hxl : x ∉ inorder l := fun hm => lt_asymm h2 (hl x hm)
      have hne : e ≠ x := fun he => lt_irrefl x (he ▸ h2)
      simp only [inorder, ihr x br]
      rw [List.erase_append_right _ hxl, List.erase_cons_tail (by simpa using hne)]
    · have hxe : x = e := le_antisymm (not_lt.mp h2) (not_lt.mp h1)
      subst hxe
      have hrn : isNull r = false := by
        cases r with
        | nil => simp [isNull] at h3
        | node _ _ _ => rfl
      obtain ⟨m, lm, rm, rest, hf, hi⟩ := findMin_node r hrn
      rw [hf]
      simp only [inorder, ihr m br]
      rw [List.erase_append_right _ hel, List.erase_cons_head, hi, List.erase_cons_head]
    · have hxe : x = e := le_antisymm (not_lt.mp h2) (not_lt.mp h1)
      subst hxe
      have hrn : inorder r = [] := by
        cases r with
        | nil => rfl
        | node _ _ _ => rw [h4] at h3; simp [isNull] at h3
      simp only [inorder]
      rw [List.erase_append_right _ hel, List.erase_cons_head, hrn, List.append_nil]
    · have hxe : x = e := le_antisymm (not_lt.mp h2) (not_lt.mp h1)
      subst hxe
      have hln : inorder l = [] := by
        cases l with
        | nil => rfl
        | node _ _ _ => simp [isNull] at h4
      simp only [inorder]
      rw [List.erase_append_right _ hel, List.erase_cons_head, hln, List.nil_append]

theorem isBST_remove (x : α) (t : BinaryNode α) (h : IsBST t) : IsBST (remove x t) := by
  rw [isBST_iff_sorted, inorder_remove x t h]
  exact ((isBST_iff_sorted t).mp h).sublist (List.erase_sublist x _)

theorem contains_iff_mem (x : α) (t : BinaryNode α) (h : IsBST t) :
    contains x t = true ↔ x ∈ inorder t := by
  induction t with
  | nil => simp [contains, inorder]
  | node e l r ihl ihr =>
    obtain ⟨hl, hr, bl, br⟩ := h
    unfold contains
    simp only [inorder, List.mem_append, List.mem_cons]
    split_ifs with h1 h2
    · rw [ihl bl]
      constructor
      · exact Or.inl
      · rintro (hm | rfl | hm)
        · exact hm
        · exact absurd h1 (lt_irrefl _)
        · exact absurd (hr x hm) (lt_asymm h1)
    · rw [ihr br]
      constructor
      · exact fun hm => Or.inr (Or.inr hm)
      · rintro (hm | rfl | hm)
        · exact absurd (hl x hm) (lt_asymm h2)
        · exact absurd h2 (lt_irrefl _)
        · exact hm
    · have hxe : x = e := le_antisymm (not_lt.mp h2) (not_lt.mp h1)
      simp [hxe]

theorem isBST_runOps (ops : List (Op α)) (t : BinaryNode α) (h : IsBST t) :
    IsBST (runOps ops t) := by
  induction ops generalizing t with
  | nil => exact h
  | cons op ops ih =>
    have hstep : IsBST (op.apply t) := by
      cases op with
      | ins x => exact isBST_insert x t h
      | del x => exact isBST_remove x t h
    exact ih (op.apply t) hstep

theorem isBST_insertAll (xs : List α) (t : BinaryNode α) (h : IsBST t) :
    IsBST (insertAll xs t) := by
  induction xs generalizing t with
  | nil => exact h
  | cons x xs ih => exact ih (insert x t) (isBST_insert x t h)

theorem mem_inorder_insertAll (xs : List α) (t : BinaryNode α) (y : α) :
    y ∈ inorder (insertAll xs t) ↔ y ∈ xs ∨ y ∈ inorder t := by
  induction xs generalizing t with
  | nil => simp [insertAll]
  | cons x xs ih =>
    have hstep : insertAll (x :: xs) t = insertAll xs (insert x t) := rfl
    rw [hstep, ih (insert x t), mem_inorder_insert, List.mem_cons]
    tauto

theorem equivalent_iff_eq (a b : α) : Equivalent a b ↔ a = b := by
  unfold Equivalent
  constructor
  · rintro ⟨h1, h2⟩
    exact le_antisymm (not_lt.mp h2) (not_lt.mp h1)
  · rintro rfl
    exact ⟨lt_irrefl a, lt_irrefl a⟩

end RemoveLemmas


theorem findMax_node (t : BinaryNode α) (h : isNull t = false) :
    ∃ m lm rm front, findMax t = node m lm rm ∧ inorder t = front ++ [m] := by
  have h1 := findMax_isNull t
  have h2 := getLast_inorder t
  rw [h] at h1
  cases hf : findMax t with
  | nil => rw [hf] at h1; simp [isNull] at h1
  | node m lm rm =>
    rw [hf] at h2
    obtain ⟨front, hfront⟩ := List.getLast?_eq_some_iff.mp h2
    exact ⟨m, lm, rm, front, rfl, hfront⟩

theorem isNull_eq_false_of_ne (t : BinaryNode α) (h : t ≠ nil) : isNull t = false := by
  cases t with
  | nil => exact absurd rfl h
  | node _ _ _ => rfl

theorem remove_of_not_contains [LT α] [DecidableRel ((· < ·) : α → α → Prop)] (x : α)
    (t : BinaryNode α) (h : contains x t = false) : remove x t = t := by
  induction t with
  | nil => rfl
  | node e l r ihl ihr =>
    unfold contains at h
    unfold remove
    split_ifs at h ⊢ with h1 h2
    · rw [ihl h]
    · rw [ihr h]

theorem insert_of_contains [LT α] [DecidableRel ((· < ·) : α → α → Prop)] (x : α)
    (t : BinaryNode α) (h : contains x t = true) : insert x t = t := by
  induction t with
  | nil => simp [contains] at h
  | node e l r ihl ihr =>
    unfold contains at h
    unfold insert
    split_ifs at h ⊢ with h1 h2
    · rw [ihl h]
    · rw [ihr h]
    · rfl

theorem insert_insert [LinearOrder α] (x : α) (t : BinaryNode α) :
    insert x (insert x t) = insert x t := by
  induction t with
  | nil => simp [insert]
  | node e l r ihl ihr =>
    by_cases h1 : x < e
    · simp [insert, h1, ihl]
    · by_cases h2 : e < x
      · simp [insert, h1, h2, ihr]
      · simp [insert, h1, h2]

/-! ## The claims -/

/-- C1: starting from any tree that satisfies the BST order invariant (the empty tree is one),
after any finite sequence of insert / remove calls the tree still satisfies the invariant, its
in-order traversal is strictly ascending under `<`, and no two of its elements are
equivalent. -/
theorem order_invariant_preserved [LinearOrder α] (t : BinaryNode α) (ops : List (Op α))
    (h : IsBST t) :
    IsBST (runOps ops t) ∧ List.Sorted (· < ·) (inorder (runOps ops t)) ∧
      List.Pairwise (fun a b => ¬ Equivalent a b) (inorder (runOps ops t)) := by
  have hb := isBST_runOps ops t h
  have hs := (isBST_iff_sorted _).mp hb
  refine ⟨hb, hs, ?_⟩
  exact List.Pairwise.imp (fun hab heq => heq.1 hab) hs

theorem order_invariant_preserved_witness :
    IsBST sampleTree ∧
      IsBST (runOps [Op.del 5, Op.ins 6, Op.del 1, Op.ins 3, Op.del 10] sampleTree) ∧
      List.Sorted (· < ·)
        (inorder (runOps [Op.del 5, Op.ins 6, Op.del 1, Op.ins 3, Op.del 10] sampleTree)) ∧
      List.Pairwise (fun a b => ¬ Equivalent a b)
        (inorder (runOps [Op.del 5, Op.ins 6, Op.del 1, Op.ins 3, Op.del 10] sampleTree)) :=
  ⟨by decide, order_invariant_preserved sampleTree
    [Op.del 5, Op.ins 6, Op.del 1, Op.ins 3, Op.del 10] (by decide)⟩

/-- C2: after the members of a list `L` are inserted one by one into an empty tree,
`contains v` is true exactly when `v` is equivalent to some member of `L`. -/
theorem contains_insertAll_iff [LinearOrder α] (L : List α) (v : α) :
    contains v (insertAll L nil) = true ↔ ∃ m ∈ L, Equivalent v m := by
  rw [contains_iff_mem v _ (isBST_insertAll L nil trivial), mem_inorder_insertAll]
  constructor
  · rintro (hv | hv)
    · exact ⟨v, hv, (equivalent_iff_eq v v).mpr rfl⟩
    · simp [inorder] at hv
  · rintro ⟨m, hm, hvm⟩
    rw [(equivalent_iff_eq v m).mp hvm]
    exact Or.inl hm

/-- C3: on a tree satisfying the BST order invariant, removing a value `x` held by some node
gives the in-order sequence of the tree with the single occurrence of `x` deleted: `x` occurs
exactly once before, the other elements keep their order, and the length drops by one. -/
theorem remove_present [LinearOrder α] (t : BinaryNode α) (x : α) (h : IsBST t)
    (hx : x ∈ inorder t) :
    inorder (remove x t) = (inorder t).erase x ∧ (inorder t).count x = 1 ∧
      (inorder (remove x t)).length + 1 = (inorder t).length ∧
      x ∉ inorder (remove x t) := by
  have hs := (isBST_iff_sorted t).mp h
  have hnd : (inorder t).Nodup := hs.nodup
  have hpos : 0 < (inorder t).length := List.length_pos_of_mem hx
  refine ⟨inorder_remove x t h, List.count_eq_one_of_mem hnd hx, ?_, ?_⟩
  · rw [inorder_remove x t h, List.length_erase_of_mem hx]
    omega
  · rw [inorder_remove x t h]
    exact fun hm => (List.Nodup.mem_erase_iff hnd).mp hm |>.1 rfl

theorem remove_present_witness :
    IsBST sampleTree ∧ 5 ∈ inorder sampleTree ∧
      inorder (remove 5 sampleTree) = (inorder sampleTree).erase 5 ∧
      (inorder sampleTree).count 5 = 1 ∧
      (inorder (remove 5 sampleTree)).length + 1 = (inorder sampleTree).length ∧
      5 ∉ inorder (remove 5 sampleTree) :=
  ⟨by decide, by decide, remove_present sampleTree 5 (by decide) (by decide)⟩

/-- C4: when `contains x` is false on a tree, `remove x` returns the very same tree (same
shape, same elements, hence the same in-order sequence); removing from the empty tree gives
the empty tree.  No assumption on the tree or on `<` is needed. -/
theorem remove_absent [LT α] [DecidableRel ((· < ·) : α → α → Prop)] (t : BinaryNode α)
    (x : α) (h : contains x t = false) :
    remove x t = t ∧ inorder (remove x t) = inorder t ∧ remove x (nil : BinaryNode α) = nil :=
  ⟨remove_of_not_contains x t h, by rw [remove_of_not_contains x t h], rfl⟩

theorem remove_absent_witness :
    contains 6 sampleTree = false ∧ remove 6 sampleTree = sampleTree ∧
      inorder (remove 6 sampleTree) = inorder sampleTree ∧
      remove 6 (nil : BinaryNode Nat) = nil :=
  ⟨by decide, remove_absent sampleTree 6 (by decide)⟩

/-- C5: when `contains x` is true on a tree, `insert x` returns the very same tree: no node is
added and no element is overwritten.  No assumption on the tree or on `<` is needed. -/
theorem insert_present [LT α] [DecidableRel ((· < ·) : α → α → Prop)] (t : BinaryNode α)
    (x : α) (h : contains x t = true) : insert x t = t :=
  insert_of_contains x t h

theorem insert_present_witness :
    contains 4 sampleTree = true ∧ insert 4 sampleTree = sampleTree :=
  ⟨by decide, insert_present sampleTree 4 (by decide)⟩

/-- C6: insert is idempotent: inserting `x` twice gives the same tree, and so the same in-order
sequence, as inserting it once. -/
theorem insert_idempotent [LinearOrder α] (t : BinaryNode α) (x : α) :
    insert x (insert x t) = insert x t ∧
      inorder (insert x (insert x t)) = inorder (insert x t) :=
  ⟨insert_insert x t, by rw [insert_insert x t]⟩

/-- C7: inserting the members of a list one by one into an empty tree gives a tree whose
in-order sequence is the strictly ascending list of the distinct values of the list; for
5, 3, 8, 1, 4, 7, 9 it is [1, 3, 4, 5, 7, 8, 9]. -/
theorem inorder_insertAll [LinearOrder α] (L : List α) :
    inorder (insertAll L nil) = Finset.sort (· ≤ ·) L.toFinset ∧
      List.Sorted (· < ·) (inorder (insertAll L nil)) ∧
      (∀ v, v ∈ inorder (insertAll L nil) ↔ v ∈ L) ∧
      inorder (insertAll [5, 3, 8, 1, 4, 7, 9] (nil : BinaryNode Nat)) = [1, 3, 4, 5, 7, 8, 9] := by
  have hs := (isBST_iff_sorted _).mp (isBST_insertAll L nil trivial)
  have hmem : ∀ v, v ∈ inorder (insertAll L nil) ↔ v ∈ L := by
    intro v
    rw [mem_inorder_insertAll]
    simp [inorder]
  refine ⟨?_, hs, hmem, by decide⟩
  have hfin : (inorder (insertAll L nil)).toFinset = L.toFinset := by
    ext v
    simp [hmem v]
  rw [← hfin]
  exact ((List.toFinset_sort (· ≤ ·) hs.nodup).mpr (hs.imp le_of_lt)).symm

/-- C8: on a non-empty tree satisfying the BST order invariant, `findMin` returns a node whose
element belongs to the tree, is less than or equal to every element of the tree, and is the
first element of the in-order sequence. -/
theorem findMin_smallest [LinearOrder α] (t : BinaryNode α) (hne : t ≠ nil) (h : IsBST t) :
    ∃ m lm rm, findMin t = node m lm rm ∧ m ∈ inorder t ∧ (∀ y ∈ inorder t, m ≤ y) ∧
      (inorder t).head? = some m := by
  obtain ⟨m, lm, rm, rest, hf, hi⟩ := findMin_node t (isNull_eq_false_of_ne t hne)
  have hs := (isBST_iff_sorted t).mp h
  rw [hi] at hs ⊢
  refine ⟨m, lm, rm, hf, List.mem_cons_self m rest, ?_, rfl⟩
  intro y hy
  rcases List.mem_cons.mp hy with rfl | hy
  · exact le_refl _
  · exact le_of_lt (List.rel_of_sorted_cons hs y hy)

theorem findMin_smallest_witness :
    sampleTree ≠ nil ∧ IsBST sampleTree ∧
      ∃ m lm rm, findMin sampleTree = node m lm rm ∧ m ∈ inorder sampleTree ∧
        (∀ y ∈ inorder sampleTree, m ≤ y) ∧ (inorder sampleTree).head? = some m :=
  ⟨by decide, by decide, findMin_smallest sampleTree (by decide) (by decide)⟩

/-- C9: on a non-empty tree satisfying the BST order invariant, `findMax` returns a node whose
element belongs to the tree, is greater than or equal to every element of the tree, and is the
last element of the in-order sequence. -/
theorem findMax_largest [LinearOrder α] (t : BinaryNode α) (hne : t ≠ nil) (h : IsBST t) :
    ∃ m lm rm, findMax t = node m lm rm ∧ m ∈ inorder t ∧ (∀ y ∈ inorder t, y ≤ m) ∧
      (inorder t).getLast? = some m := by
  obtain ⟨m, lm, rm, front, hf, hi⟩ := findMax_node t (isNull_eq_false_of_ne t hne)
  have hs := (isBST_iff_sorted t).mp h
  rw [hi] at hs ⊢
  refine ⟨m, lm, rm, hf, by simp, ?_, by simp⟩
  intro y hy
  rcases List.mem_append.mp hy with hy | hy
  · exact le_of_lt ((List.pairwise_append.mp hs).2.2 y hy m (List.mem_singleton_self m))
  · rw [List.mem_singleton.mp hy]

theorem findMax_largest_witness :
    sampleTree ≠ nil ∧ IsBST sampleTree ∧
      ∃ m lm rm, findMax sampleTree = node m lm rm ∧ m ∈ inorder sampleTree ∧
        (∀ y ∈ inorder sampleTree, y ≤ m) ∧ (inorder sampleTree).getLast? = some m :=
  ⟨by decide, by decide, findMax_largest sampleTree (by decide) (by decide)⟩

/-- C10: `findMin` and `findMax` return the null handle on the empty tree and a node on every
non-empty tree: the result is absent if and only if the tree is empty. -/
theorem findMin_findMax_absent_iff (t : BinaryNode α) :
    (findMin t = nil ↔ t = nil) ∧ (findMax t = nil ↔ t = nil) ∧
      findMin (nil : BinaryNode α) = nil ∧ findMax (nil : BinaryNode α) = nil := by
  have key : ∀ s : BinaryNode α, s = nil ↔ isNull s = true := by
    intro s
    cases s <;> simp [isNull]
  refine ⟨?_, ?_, rfl, rfl⟩
  · rw [key (findMin t), key t, findMin_isNull]
  · rw [key (findMax t), key t, findMax_isNull]


/-! ## Auxiliary facts for copying, clearing, sizes and call depth -/

theorem cloneAs_pointer (t : BinaryNode α) :
    cloneAs Passing.pointer t = Outcome.value t := by
  induction t with
  | nil => rfl
  | node e l r ihl ihr => simp [cloneAs, bindsTo, ihl, ihr]

theorem cloneAs_reference (t : BinaryNode α) :
    cloneAs Passing.reference t = Outcome.rejected := by
  cases t <;> rfl

theorem makeEmpty_fst (t : BinaryNode α) : (makeEmpty t).1 = nil := by
  cases t <;> rfl

theorem makeEmpty_snd_perm (t : BinaryNode α) : List.Perm (makeEmpty t).2 (inorder t) := by
  induction t with
  | nil => exact List.Perm.refl _
  | node e l r ihl ihr =>
    simp only [makeEmpty, inorder]
    have h1 : List.Perm ((makeEmpty l).2 ++ (makeEmpty r).2 ++ [e])
        ((makeEmpty l).2 ++ (e :: (makeEmpty r).2)) := by
      rw [List.append_assoc]
      exact List.Perm.append_left _ (List.perm_append_singleton e _)
    exact h1.trans (List.Perm.append ihl (List.Perm.cons e ihr))

theorem size_insert_eq [LT α] [DecidableRel ((· < ·) : α → α → Prop)] (x : α)
    (t : BinaryNode α) :
    size (insert x t) = if contains x t = true then size t else size t + 1 := by
  induction t with
  | nil => simp [insert, contains, size]
  | node e l r ihl ihr =>
    by_cases h1 : x < e
    · simp only [insert, contains, h1, ↓reduceIte, size]
      rw [ihl]
      split_ifs <;> omega
    · by_cases h2 : e < x
      · simp only [insert, contains, h1, h2, ↓reduceIte, size]
        rw [ihr]
        split_ifs <;> omega
      · simp only [insert, contains, h1, h2, ↓reduceIte]

theorem height_remove_le [LT α] [DecidableRel ((· < ·) : α → α → Prop)] (x : α)
    (t : BinaryNode α) : height (remove x t) ≤ height t := by
  induction t generalizing x with
  | nil => simp [remove]
  | node e l r ihl ihr =>
    unfold remove
    split_ifs with h1 h2 h3 h4
    · have := ihl x
      simp only [height]
      omega
    · have := ihr x
      simp only [height]
      omega
    · split
      · next m lm rm _ =>
        have := ihr m
        simp only [height]
        omega
      · exact le_refl _
    · simp only [height]
      omega
    · simp only [height]
      omega

theorem removeCalls_le [LT α] [DecidableRel ((· < ·) : α → α → Prop)] (x : α)
    (t : BinaryNode α) : removeCalls x t ≤ height t + 1 := by
  induction t generalizing x with
  | nil => simp [removeCalls]
  | node e l r ihl ihr =>
    unfold removeCalls
    split_ifs with h1 h2 h3
    · have := ihl x
      simp only [height]
      omega
    · have := ihr x
      simp only [height]
      omega
    · split
      · next m lm rm _ =>
        have := ihr m
        simp only [height]
        omega
      · simp only [height]
        omega
    · simp only [height]
      omega

theorem removeCallee_child [LT α] [DecidableRel ((· < ·) : α → α → Prop)] (x y : α)
    (t s : BinaryNode α) (h : removeCallee x t = some (y, s)) :
    ∃ e l r, t = node e l r ∧ (s = l ∨ s = r) := by
  cases t with
  | nil => simp [removeCallee] at h
  | node e l r =>
    refine ⟨e, l, r, rfl, ?_⟩
    rw [removeCallee] at h
    split_ifs at h with h1 h2 h3
    · simp only [Option.some.injEq, Prod.mk.injEq] at h
      exact Or.inl h.2.symm
    · simp only [Option.some.injEq, Prod.mk.injEq] at h
      exact Or.inr h.2.symm
    · split at h
      · simp only [Option.some.injEq, Prod.mk.injEq] at h
        exact Or.inr h.2.symm
      · simp at h

theorem removeCalls_unfold [LT α] [DecidableRel ((· < ·) : α → α → Prop)] (x : α)
    (t : BinaryNode α) :
    removeCalls x t =
      match removeCallee x t with
      | none => 1
      | some (y, s) => 1 + removeCalls y s := by
  cases t with
  | nil => rfl
  | node e l r =>
    rw [removeCalls, removeCallee]
    split_ifs with h1 h2 h3
    · rfl
    · rfl
    · cases findMin r <;> rfl
    · rfl

theorem remove_insert_cancel [LinearOrder α] (x : α) (t : BinaryNode α)
    (h : contains x t = false) : remove x (insert x t) = t := by
  induction t with
  | nil => simp [insert, remove, isNull]
  | node e l r ihl ihr =>
    unfold contains at h
    unfold insert
    split_ifs at h ⊢ with h1 h2
    · simp [remove, h1, ihl h]
    · simp [remove, h1, h2, ihr h]

/-! ## The claims on copying, clearing, removal and search -/

/-- C11 (defect in the header): `clone`, with the result type `BinaryNode&` that line 214
declares, delivers no result for any source.  For the null handle the returned `nullptr`
cannot initialise a reference, so the result is not the null handle; for a node a pointer is
returned where a reference is declared, and references are handed to the pointer parameters of
the node constructor, so the result is not a copy of the source. -/
theorem clone_declared_no_result (t : BinaryNode α) :
    clone t = Outcome.rejected ∧ clone t ≠ Outcome.value t ∧
      clone (nil : BinaryNode α) ≠ Outcome.value nil ∧
      clone sampleTree ≠ Outcome.value sampleTree := by
  have key : ∀ s : BinaryNode α, clone s ≠ Outcome.value s := by
    intro s h
    rw [clone, cloneResult, cloneAs_reference] at h
    cases h
  refine ⟨cloneAs_reference t, key t, key nil, ?_⟩
  intro h
  rw [clone, cloneResult, cloneAs_reference] at h
  cases h

/-- C12: `makeEmpty` leaves the handle null for every tree; on an already empty tree it
deletes nothing and leaves the handle null, so applying it twice gives the same handle as
applying it once.  Every node of the tree is deleted exactly once. -/
theorem makeEmpty_clears (t : BinaryNode α) :
    (makeEmpty t).1 = nil ∧ makeEmpty (nil : BinaryNode α) = (nil, []) ∧
      makeEmpty (makeEmpty t).1 = (nil, []) ∧
      (makeEmpty (makeEmpty t).1).1 = (makeEmpty t).1 ∧
      List.Perm (makeEmpty t).2 (inorder t) := by
  have h1 := makeEmpty_fst t
  refine ⟨h1, rfl, ?_, ?_, makeEmpty_snd_perm t⟩
  · rw [h1]; rfl
  · rw [h1]; rfl

/-- C13: when the root of a BST holds `x` and has two children `L` and `R`, `remove x` puts
the minimum `m` of `R` at the root, keeps `L` as the left subtree, and the right subtree is
`remove m R`, whose in-order sequence is that of `R` without its first element `m`.  Removing
5 from the tree built from 5, 3, 8, 1, 4, 7, 9 puts 7 at the root. -/
theorem remove_two_children [LinearOrder α] (x : α) (L R : BinaryNode α) (hL : L ≠ nil)
    (hR : R ≠ nil) (h : IsBST (node x L R)) :
    ∃ m lm rm rest, findMin R = node m lm rm ∧ inorder R = m :: rest ∧
      (∀ y ∈ inorder R, m ≤ y) ∧
      remove x (node x L R) = node m L (remove m R) ∧
      inorder (remove m R) = rest ∧
      inorder (remove x (node x L R)) = inorder L ++ m :: rest ∧
      element? (remove 5 sampleTree) = some 7 := by
  obtain ⟨m, lm, rm, rest, hf, hi⟩ := findMin_node R (isNull_eq_false_of_ne R hR)
  have hbR : IsBST R := h.2.2.2
  have hs := (isBST_iff_sorted R).mp hbR
  have hrem : remove x (node x L R) = node m L (remove m R) := by
    have hLn := isNull_eq_false_of_ne L hL
    have hRn := isNull_eq_false_of_ne R hR
    simp [remove, hLn, hRn, hf]
  have hin : inorder (remove m R) = rest := by
    rw [inorder_remove m R hbR, hi, List.erase_cons_head]
  refine ⟨m, lm, rm, rest, hf, hi, ?_, hrem, hin, ?_, by decide⟩
  · rw [hi] at hs ⊢
    intro y hy
    rcases List.mem_cons.mp hy with rfl | hy
    · exact le_refl _
    · exact le_of_lt (List.rel_of_sorted_cons hs y hy)
  · rw [hrem, inorder, hin]

theorem remove_two_children_witness :
    sampleTree = node 5 (node 3 (node 1 nil nil) (node 4 nil nil))
        (node 8 (node 7 nil nil) (node 9 nil nil)) ∧
      ∃ m lm rm rest, findMin (node 8 (node 7 nil nil) (node 9 nil nil)) = node m lm rm ∧
        inorder (node 8 (node 7 nil nil) (node 9 nil nil)) = m :: rest ∧
        (∀ y ∈ inorder (node 8 (node 7 nil nil) (node 9 nil nil)), m ≤ y) ∧
        remove 5 (node 5 (node 3 (node 1 nil nil) (node 4 nil nil))
            (node 8 (node 7 nil nil) (node 9 nil nil))) =
          node m (node 3 (node 1 nil nil) (node 4 nil nil))
            (remove m (node 8 (node 7 nil nil) (node 9 nil nil))) ∧
        inorder (remove m (node 8 (node 7 nil nil) (node 9 nil nil))) = rest ∧
        inorder (remove 5 (node 5 (node 3 (node 1 nil nil) (node 4 nil nil))
            (node 8 (node 7 nil nil) (node 9 nil nil)))) =
          inorder (node 3 (node 1 nil nil) (node 4 nil nil)) ++ m :: rest ∧
        element? (remove 5 sampleTree) = some 7 :=
  ⟨by decide, remove_two_children 5 (node 3 (node 1 nil nil) (node 4 nil nil))
    (node 8 (node 7 nil nil) (node 9 nil nil)) (by decide) (by decide) (by decide)⟩

/-- C14: every recursive call made by `remove`, the successor removal of the two-children
branch included, is on a child of its handle argument, hence on a strictly smaller tree, so
`remove` is total (it is defined by structural recursion); the number of nested activations
is at most `height t + 1`, where the height counts the nodes on the longest downward path.
The bound is attained when an absent value is searched along a longest path. -/
theorem remove_depth_bounded [LT α] [DecidableRel ((· < ·) : α → α → Prop)]
    (t : BinaryNode α) (x : α) :
    (∀ y s, removeCallee x t = some (y, s) → ∃ e l r, t = node e l r ∧ (s = l ∨ s = r)) ∧
      (∀ y s, removeCallee x t = some (y, s) → size s < size t) ∧
      (removeCalls x t =
        match removeCallee x t with
        | none => 1
        | some (y, s) => 1 + removeCalls y s) ∧
      removeCalls x t ≤ height t + 1 ∧
      removeCalls 0 sampleTree = height sampleTree + 1 := by
  refine ⟨fun y s h => removeCallee_child x y t s h, ?_, removeCalls_unfold x t,
    removeCalls_le x t, by decide⟩
  intro y s h
  obtain ⟨e, l, r, rfl, hs | hs⟩ := removeCallee_child x y t s h
  · rw [hs]
    simp only [size]
    omega
  · rw [hs]
    simp only [size]
    omega

theorem remove_depth_bounded_witness :
    removeCallee 5 sampleTree = some (7, node 8 (node 7 nil nil) (node 9 nil nil)) ∧
      size (node 8 (node 7 nil nil) (node 9 nil nil)) < size sampleTree ∧
      removeCalls 5 sampleTree ≤ height sampleTree + 1 :=
  ⟨by decide,
    (remove_depth_bounded sampleTree 5).2.1 7 (node 8 (node 7 nil nil) (node 9 nil nil))
      (by decide),
    (remove_depth_bounded sampleTree 5).2.2.2.1⟩

/-- C15: `insert x` adds exactly one node when `contains x` is false on the tree and none when
it is true.  No assumption on the tree or on `<` is needed. -/
theorem insert_node_count [LT α] [DecidableRel ((· < ·) : α → α → Prop)]
    (t : BinaryNode α) (x : α) :
    size (insert x t) = if contains x t = true then size t else size t + 1 :=
  size_insert_eq x t

/-- C16: on a tree satisfying the BST order invariant, after `remove x` the search for `x`
fails and the search for every value not equivalent to `x` answers as before.  After removing
5 and 1 from the tree built from 5, 3, 8, 1, 4, 7, 9, `contains 4` is true and `contains 5` is
false. -/
theorem contains_after_remove [LinearOrder α] (t : BinaryNode α) (x : α) (h : IsBST t) :
    contains x (remove x t) = false ∧
      (∀ y, ¬ Equivalent y x → contains y (remove x t) = contains y t) ∧
      contains 4 (remove 1 (remove 5 sampleTree)) = true ∧
      contains 5 (remove 1 (remove 5 sampleTree)) = false := by
  have hb := isBST_remove x t h
  have hnd : (inorder t).Nodup := ((isBST_iff_sorted t).mp h).nodup
  refine ⟨?_, ?_, by decide, by decide⟩
  · rw [Bool.eq_false_iff]
    intro hc
    rw [contains_iff_mem x _ hb, inorder_remove x t h] at hc
    exact ((List.Nodup.mem_erase_iff hnd).mp hc).1 rfl
  · intro y hy
    have hne : y ≠ x := fun heq => hy ((equivalent_iff_eq y x).mpr heq)
    rw [Bool.eq_iff_iff, contains_iff_mem y _ hb, contains_iff_mem y t h,
      inorder_remove x t h]
    exact List.mem_erase_of_ne hne

theorem contains_after_remove_witness :
    IsBST sampleTree ∧ contains 5 (remove 5 sampleTree) = false ∧
      (∀ y, ¬ Equivalent y 5 → contains y (remove 5 sampleTree) = contains y sampleTree) ∧
      contains 4 (remove 1 (remove 5 sampleTree)) = true ∧
      contains 5 (remove 1 (remove 5 sampleTree)) = false :=
  ⟨by decide, contains_after_remove sampleTree 5 (by decide)⟩

/-- C17: on a tree satisfying the BST order invariant, `contains x` is true exactly when some
node of the tree, wherever it is, holds an element equivalent to `x`; on the empty tree
`contains` is false. -/
theorem contains_complete [LinearOrder α] (t : BinaryNode α) (x : α) (h : IsBST t) :
    (contains x t = true ↔ ∃ e ∈ inorder t, Equivalent x e) ∧
      contains x (nil : BinaryNode α) = false := by
  refine ⟨?_, rfl⟩
  rw [contains_iff_mem x t h]
  constructor
  · intro hx
    exact ⟨x, hx, (equivalent_iff_eq x x).mpr rfl⟩
  · rintro ⟨e, he, hxe⟩
    rw [(equivalent_iff_eq x e).mp hxe]
    exact he

theorem contains_complete_witness :
    IsBST sampleTree ∧ (contains 9 sampleTree = true ↔ ∃ e ∈ inorder sampleTree, Equivalent 9 e) ∧
      contains 9 (nil : BinaryNode Nat) = false :=
  ⟨by decide, contains_complete sampleTree 9 (by decide)⟩

/-- C18: when `contains x` is false on a tree, removing `x` right after inserting it gives back
the very same tree, in shape and elements.  The tree need not satisfy the order invariant. -/
theorem remove_insert_new [LinearOrder α] (t : BinaryNode α) (x : α)
    (h : contains x t = false) : remove x (insert x t) = t :=
  remove_insert_cancel x t h

theorem remove_insert_new_witness :
    contains 6 sampleTree = false ∧ remove 6 (insert 6 sampleTree) = sampleTree :=
  ⟨by decide, remove_insert_new sampleTree 6 (by decide)⟩

/-- C19: `remove` never increases the height of a tree, in every branch, the two-children
branch included.  No assumption on the tree or on `<` is needed. -/
theorem remove_height_le [LT α] [DecidableRel ((· < ·) : α → α → Prop)]
    (t : BinaryNode α) (x : α) :
    height (remove x t) ≤ height t ∧ height (remove 5 sampleTree) ≤ height sampleTree :=
  ⟨height_remove_le x t, by decide⟩

end BinarySearchTree
